import Mathlib

/-!
Verification of the tor-watch uptime/content monitor
(`tools/tor-watch/monitor/monitor.py`) against its specification.

The Python source is shallowly embedded: pure helper functions become Lean
functions, the SQLite tables become Lean lists of record structures, and the
poll loop's per-target step becomes an explicit state-passing function.
HTML payloads are represented by their parse tree (the `Node` type below);
the raw HTML string consumed by regex scans and emptiness tests is recovered
by the serialization `render`.  Machine integers of SHA-256 are `Nat`s
reduced modulo 2^32 at every operation.

External libraries are modelled as follows:
* `hashlib.sha256(...).hexdigest()` — a full FIPS-180-4 SHA-256 over byte
  lists (`sha256Hex` below), with UTF-8 encoding of the input string.
* `BeautifulSoup(html, "html.parser").get_text(sep, strip=True)` — the
  behaviour of BeautifulSoup ≥ 4.9: the text fragments collected are exactly
  the plain text nodes whose direct parent is not one of the string-container
  tags `script`, `style`, `template` (their contents are `Script` /
  `Stylesheet` / `TemplateString` objects, skipped by `get_text`), and
  comments are never collected.  Each collected fragment is stripped; empty
  fragments are skipped; the rest are joined with the separator.
* Python's whitespace class (for `str.strip` and `re.sub(r"\s+", " ", ...)`)
  is modelled by the ASCII whitespace characters space, `\t`, `\n`, `\r`,
  `\x0b`, `\x0c`; Python's `str.lower` is modelled by ASCII lowercasing
  (`Char.toLower`).  All inputs exercised by the theorems are ASCII.
-/

namespace Monitor

/-! ## Characters and whitespace -/

/-- Python's whitespace class restricted to ASCII: the characters matched by
`\s` in `re` and stripped by `str.strip`. -/
def isWs (c : Char) : Bool :=
  c == ' ' || c == '\t' || c == '\n' || c == '\r' ||
  c == Char.ofNat 11 || c == Char.ofNat 12

/-- Lowercase a character list (models `str.lower` on ASCII input). -/
def lowerL (l : List Char) : List Char := l.map Char.toLower

/-- Drop leading whitespace (left part of `str.strip`). -/
def trimL (l : List Char) : List Char := l.dropWhile isWs

/-- Drop trailing whitespace (right part of `str.strip`): a character is
kept unless it is whitespace followed only by dropped characters. -/
def trimR (l : List Char) : List Char :=
  l.foldr (fun c acc => if isWs c && acc.isEmpty then [] else c :: acc) []

/-- Python `str.strip()` on a character list. -/
def pyStrip (l : List Char) : List Char := trimR (trimL l)

/-- Auxiliary for `collapse`: the flag records whether the previous character
was part of a whitespace run that has already emitted its single space. -/
def collapseAux : Bool → List Char → List Char
  | _, [] => []
  | inWs, c :: rest =>
    if isWs c then
      if inWs then collapseAux true rest
      else ' ' :: collapseAux true rest
    else c :: collapseAux false rest

/-- Model of `re.sub(r"\s+", " ", s)`: every maximal whitespace run becomes a
single space. -/
def collapse (l : List Char) : List Char := collapseAux false l

/-- Join character-list fragments with single spaces (model of
`" ".join(...)` / `get_text(" ", ...)`'s separator insertion). -/
def interSp : List (List Char) → List Char
  | [] => []
  | [g] => g
  | g :: g' :: gs => g ++ ' ' :: interSp (g' :: gs)

/-! ## SHA-256 (FIPS 180-4) over byte lists, words as `Nat % 2^32` -/

/-- Reduce to a 32-bit word. -/
def w32 (n : Nat) : Nat := n % 4294967296

/-- Right rotation of a 32-bit word. -/
def rotr (n a : Nat) : Nat := w32 ((a >>> n) ||| (a <<< (32 - n)))

/-- Bitwise complement of a 32-bit word. -/
def wnot (a : Nat) : Nat := Nat.xor a 4294967295

def bigSigma0 (a : Nat) : Nat := Nat.xor (Nat.xor (rotr 2 a) (rotr 13 a)) (rotr 22 a)
def bigSigma1 (a : Nat) : Nat := Nat.xor (Nat.xor (rotr 6 a) (rotr 11 a)) (rotr 25 a)
def smallSigma0 (a : Nat) : Nat := Nat.xor (Nat.xor (rotr 7 a) (rotr 18 a)) (a >>> 3)
def smallSigma1 (a : Nat) : Nat := Nat.xor (Nat.xor (rotr 17 a) (rotr 19 a)) (a >>> 10)

def chF (e f g : Nat) : Nat := Nat.xor (Nat.land e f) (Nat.land (wnot e) g)
def majF (a b c : Nat) : Nat := Nat.xor (Nat.xor (Nat.land a b) (Nat.land a c)) (Nat.land b c)

/-- The 64 SHA-256 round constants of FIPS 180-4 (decimal). -/
def sha256K : List Nat :=
  [1116352408, 1899447441, 3049323471, 3921009573, 961987163, 1508970993,
   2453635748, 2870763221, 3624381080, 310598401, 607225278, 1426881987,
   1925078388, 2162078206, 2614888103, 3248222580, 3835390401, 4022224774,
   264347078, 604807628, 770255983, 1249150122, 1555081692, 1996064986,
   2554220882, 2821834349, 2952996808, 3210313671, 3336571891, 3584528711,
   113926993, 338241895, 666307205, 773529912, 1294757372, 1396182291,
   1695183700, 1986661051, 2177026350, 2456956037, 2730485921, 2820302411,
   3259730800, 3345764771, 3516065817, 3600352804, 4094571909, 275423344,
   430227734, 506948616, 659060556, 883997877, 958139571, 1322822218,
   1537002063, 1747873779, 1955562222, 2024104815, 2227730452, 2361852424,
   2428436474, 2756734187, 3204031479, 3329325298]

/-- Initial hash state of FIPS 180-4 (decimal). -/
def sha256H0 : List Nat :=
  [1779033703, 3144134277, 1013904242, 2773480762, 1359893119, 2600822924,
   528734635, 1541459225]

/-- Append the next word of the SHA-256 message schedule. -/
def extendStep (ws : List Nat) : List Nat :=
  let n := ws.length
  ws ++ [w32 (smallSigma1 (ws.getD (n - 2) 0) + ws.getD (n - 7) 0 +
              smallSigma0 (ws.getD (n - 15) 0) + ws.getD (n - 16) 0)]

/-- Iterate `extendStep` a fixed number of times. -/
def extendIter : Nat → List Nat → List Nat
  | 0, ws => ws
  | k + 1, ws => extendIter k (extendStep ws)

/-- Extend a 16-word block to the 64-word message schedule. -/
def extendW (ws : List Nat) : List Nat := extendIter 48 ws

/-- One round of the compression function on the 8-word state. -/
def sha256Round (st : List Nat) (kw : Nat × Nat) : List Nat :=
  match st with
  | [a, b, c, d, e, f, g, h] =>
    let t1 := w32 (h + bigSigma1 e + chF e f g + kw.1 + kw.2)
    let t2 := w32 (bigSigma0 a + majF a b c)
    [w32 (t1 + t2), a, b, c, w32 (d + t1), e, f, g]
  | other => other

/-- Group a byte list into big-endian 32-bit words. -/
def bytesToWords : List Nat → List Nat
  | b0 :: b1 :: b2 :: b3 :: rest => (((b0 * 256 + b1) * 256 + b2) * 256 + b3) :: bytesToWords rest
  | _ => []

/-- Compress one 64-byte block into the running hash state. -/
def sha256Block (hs : List Nat) (block : List Nat) : List Nat :=
  let w := extendW (bytesToWords block)
  let st := (sha256K.zip w).foldl sha256Round hs
  (hs.zip st).map fun p => w32 (p.1 + p.2)

/-- Fuel-driven worker for `chunks64`; the fuel is an upper bound on the
number of chunks, and each step consumes at least one byte. -/
def chunks64Go : Nat → List Nat → List (List Nat)
  | 0, _ => []
  | _, [] => []
  | fuel + 1, b :: rest => (b :: rest).take 64 :: chunks64Go fuel ((b :: rest).drop 64)

/-- Split a byte list into 64-byte chunks. -/
def chunks64 (l : List Nat) : List (List Nat) := chunks64Go l.length l

/-- Big-endian 8-byte encoding of a natural number (the length field). -/
def be64 (n : Nat) : List Nat :=
  [w32 0 + (n >>> 56) % 256, (n >>> 48) % 256, (n >>> 40) % 256, (n >>> 32) % 256,
   (n >>> 24) % 256, (n >>> 16) % 256, (n >>> 8) % 256, n % 256]

/-- SHA-256 padding: append `0x80`, zeros to 56 mod 64, then the bit length. -/
def sha256Pad (msg : List Nat) : List Nat :=
  let l := msg.length
  msg ++ 128 :: List.replicate ((119 - l % 64) % 64) 0 ++ be64 (8 * l)

/-- The SHA-256 digest of a byte list, as 8 32-bit words. -/
def sha256Words (msg : List Nat) : List Nat :=
  (chunks64 (sha256Pad msg)).foldl sha256Block sha256H0

/-- Lowercase hex digit of a nibble: `0`-`9` then `a`-`f`. -/
def hexDigit (n : Nat) : Char :=
  let m := n % 16
  if m < 10 then Char.ofNat (48 + m) else Char.ofNat (87 + m)

/-- Fixed-width 8-hex-digit rendering of a 32-bit word. -/
def hexWord (n : Nat) : List Char :=
  [hexDigit (n >>> 28), hexDigit (n >>> 24), hexDigit (n >>> 20), hexDigit (n >>> 16),
   hexDigit (n >>> 12), hexDigit (n >>> 8), hexDigit (n >>> 4), hexDigit n]

/-- Lowercase hexadecimal digest string of a byte list
(models `hashlib.sha256(bytes).hexdigest()`). -/
def sha256Hex (msg : List Nat) : String :=
  String.mk ((sha256Words msg).flatMap hexWord)

/-- UTF-8 encoding of a character (models `str.encode("utf-8")` per char). -/
def utf8Char (c : Char) : List Nat :=
  let n := c.toNat
  if n < 128 then [n]
  else if n < 2048 then [192 + n / 64, 128 + n % 64]
  else if n < 65536 then [224 + n / 4096, 128 + (n / 64) % 64, 128 + n % 64]
  else [240 + n / 262144, 128 + (n / 4096) % 64, 128 + (n / 64) % 64, 128 + n % 64]

/-- UTF-8 bytes of a character list. -/
def utf8Bytes (l : List Char) : List Nat := l.flatMap utf8Char

/-- SHA-256 hex digest of a string's UTF-8 encoding:
`hashlib.sha256(s.encode("utf-8")).hexdigest()`. -/
def sha256HexStr (s : String) : String := sha256Hex (utf8Bytes s.data)

/-! ## HTML documents

An HTML payload is represented by its parse tree, as produced by
`BeautifulSoup(html, "html.parser")`: text nodes, comment nodes, and
elements (tag names already lowercased by the parser) with an attribute
list and children.  A full document is a list of top-level nodes; the raw
HTML string that the Python code also consumes directly (regex scan,
emptiness test) is recovered by the canonical serialization `render`. -/

inductive Node where
  | text (s : String)
  | comment (s : String)
  | elem (tag : String) (attrs : List (String × String)) (children : List Node)

/-- A parsed document: the top-level nodes. -/
abbrev Doc := List Node

/-- Tags whose direct string children are stored by BeautifulSoup ≥ 4.9 in
`Script` / `Stylesheet` / `TemplateString` containers and therefore skipped
by `get_text`. -/
def stringContainers : List String := ["script", "style", "template"]

mutual
/-- Text fragments yielded by `get_text`'s traversal of one node, given the
tag name of its direct parent: plain text nodes outside string-container
parents, in document order; comments are never yielded. -/
def nodeFrags (parent : String) : Node → List String
  | .text s => if parent ∈ stringContainers then [] else [s]
  | .comment _ => []
  | .elem t _ cs => listFrags t cs

/-- Text fragments of a node list (children of a `parent`-tagged element). -/
def listFrags (parent : String) : List Node → List String
  | [] => []
  | n :: ns => nodeFrags parent n ++ listFrags parent ns
end

/-- Text fragments of a whole document (the soup's root is the synthetic
`[document]` tag, which is not a string container). -/
def docFrags (d : Doc) : List String := listFrags "[document]" d

/-- Serialize an attribute list as ` key="value"` pieces. -/
def renderAttrs : List (String × String) → String
  | [] => ""
  | (k, v) :: rest => " " ++ k ++ "=\"" ++ v ++ "\"" ++ renderAttrs rest

mutual
/-- Serialize one node back to HTML text. -/
def renderNode : Node → String
  | .text s => s
  | .comment s => "<!--" ++ s ++ "-->"
  | .elem t attrs cs => "<" ++ t ++ renderAttrs attrs ++ ">" ++ renderList cs ++ "</" ++ t ++ ">"

/-- Serialize a node list. -/
def renderList : List Node → String
  | [] => ""
  | n :: ns => renderNode n ++ renderList ns
end

/-- The raw HTML text of a document. -/
def render (d : Doc) : String := renderList d

mutual
/-- The `href` values of anchor elements, in document order: models
`soup.find_all("a", href=True)` followed by reading `a["href"]`. -/
def nodeAnchors : Node → List String
  | .text _ => []
  | .comment _ => []
  | .elem t attrs cs =>
    (if t = "a" then
       match attrs.lookup "href" with
       | some h => [h]
       | none => []
     else []) ++ listAnchors cs

/-- Anchor `href`s of a node list. -/
def listAnchors : List Node → List String
  | [] => []
  | n :: ns => nodeAnchors n ++ listAnchors ns
end

mutual
/-- The children of the first `<title>` element in document order
(models `soup.title`). -/
def nodeTitle : Node → Option (List Node)
  | .text _ => none
  | .comment _ => none
  | .elem t _ cs => if t = "title" then some cs else listTitle cs

/-- First `<title>` element of a node list. -/
def listTitle : List Node → Option (List Node)
  | [] => none
  | n :: ns =>
    match nodeTitle n with
    | some r => some r
    | none => listTitle ns
end

/-- Join fragments with a separator (model of `separator.join(...)` as done
by `get_text`). -/
def interJoin (sep : List Char) : List (List Char) → List Char
  | [] => []
  | [g] => g
  | g :: g' :: gs => g ++ (sep ++ interJoin sep (g' :: gs))

/-- Boolean non-emptiness of a fragment. -/
def nonNil (g : List Char) : Bool := !g.isEmpty

/-- The stripped, non-empty text fragments below a `parent`-tagged element:
`get_text(sep, strip=True)` strips every fragment and skips the ones that
become empty. -/
def strippedFrags (parent : String) (ns : List Node) : List (List Char) :=
  ((listFrags parent ns).map fun s => pyStrip s.data).filter nonNil

/-- Model of `normalize_text` from the source:
`soup.get_text(" ", strip=True)`, then `re.sub(r"\s+", " ", text).lower()`. -/
def normalize_text (d : Doc) : String :=
  String.mk (lowerL (collapse (interJoin [' '] (strippedFrags "[document]" d))))

/-- Model of `content_signature` from the source: SHA-256 hex digest of the
UTF-8 encoded normalized text. -/
def content_signature (d : Doc) : String := sha256HexStr (normalize_text d)

/-- Model of the title extraction in `run`:
`BeautifulSoup(html).title` and, when present, `title.get_text(strip=True)`
(empty separator, fragments stripped). -/
def titleText (d : Doc) : Option String :=
  (listTitle d).map fun cs => String.mk (interJoin [] (strippedFrags "title" cs))

/-! ## Onion-candidate discovery

`ONION_RE = re.compile(r"[a-z2-7]{56}\.onion", re.IGNORECASE)`; the
discoverer unions a raw-text `findall` pass with an anchor pass that
resolves each `href` against the base URL and `fullmatch`es the hostname. -/

/-- A character matched by `[a-z2-7]` under `re.IGNORECASE`. -/
def isOnionChar (c : Char) : Bool :=
  ('a' ≤ c && c ≤ 'z') || ('A' ≤ c && c ≤ 'Z') || ('2' ≤ c && c ≤ '7')

/-- The literal suffix `.onion`. -/
def onionSuffix : List Char := ['.', 'o', 'n', 'i', 'o', 'n']

/-- Try to match `ONION_RE` at the head of the text: exactly 56 class
characters immediately followed by `.onion` (case-insensitively).  Returns
the matched text in its original case, as `re.findall` does. -/
def matchOnionAt (l : List Char) : Option (List Char) :=
  let label := l.take 56
  let suf := (l.drop 56).take 6
  if label.length = 56 ∧ label.all isOnionChar ∧ lowerL suf = onionSuffix then
    some (label ++ suf)
  else none

/-- Scan for non-overlapping matches left to right, resuming after each
match, as `re.findall` does.  The fuel is the remaining text length. -/
def onionScan : Nat → List Char → List (List Char)
  | 0, _ => []
  | _ + 1, [] => []
  | fuel + 1, c :: rest =>
    match matchOnionAt (c :: rest) with
    | some m => m :: onionScan fuel ((c :: rest).drop 62)
    | none => onionScan fuel rest

/-- Model of `ONION_RE.findall(html)`. -/
def onionFindAll (s : String) : List String :=
  (onionScan s.data.length s.data).map String.mk

/-- `ONION_RE.fullmatch(host)` as a boolean: the whole string is 56 class
characters followed by `.onion`. -/
def onionFullmatchB (s : String) : Bool :=
  s.data.length == 62 && (s.data.take 56).all isOnionChar &&
    lowerL (s.data.drop 56) == onionSuffix

/-- ASCII letter test. -/
def isAlpha (c : Char) : Bool := ('a' ≤ c && c ≤ 'z') || ('A' ≤ c && c ≤ 'Z')

/-- Characters allowed in a URL scheme after the initial letter. -/
def isSchemeChar (c : Char) : Bool :=
  isAlpha c || ('0' ≤ c && c ≤ '9') || c == '+' || c == '-' || c == '.'

/-- Drop characters up to and including the first `://`. -/
def dropToSchemeSep : List Char → Option (List Char)
  | [] => none
  | ':' :: '/' :: '/' :: rest => some rest
  | _ :: rest => dropToSchemeSep rest

/-- Modelled from `urllib.parse.urlparse(u).hostname or ""` (already
lowercased by `urlparse`): the netloc is the text between `://` and the
next `/`, `?` or `#`; userinfo before the last `@` and a `:port` suffix are
removed.  IPv6 bracket notation is not modelled (never exercised here). -/
def urlHostname (u : String) : String :=
  match dropToSchemeSep u.data with
  | none => ""
  | some rest =>
    let netloc := rest.takeWhile fun c => !(c == '/' || c == '?' || c == '#')
    let hostinfo :=
      if netloc.contains '@' then (netloc.reverse.takeWhile (fun c => c != '@')).reverse
      else netloc
    String.mk (lowerL (hostinfo.takeWhile fun c => c != ':'))

/-- Does the href carry its own scheme (`scheme:` with a letter-initial
scheme), in which case `urljoin` keeps it absolute? -/
def hrefHasScheme (href : String) : Bool :=
  match href.data with
  | [] => false
  | c :: _ =>
    let pre := href.data.takeWhile isSchemeChar
    isAlpha c && ((href.data.drop pre.length).head? == some ':')

/-- Modelled from `urlparse(urljoin(base_url, href)).hostname or ""`: an
absolute href keeps its own host, a protocol-relative `//host/...` href
takes its host from the href, and every other relative reference resolves
against the base and therefore keeps the base's host.  (This models exactly
the hostname of the joined URL, the only part the discoverer uses.) -/
def joinedHostname (base href : String) : String :=
  if hrefHasScheme href then urlHostname href
  else if href.startsWith "//" then urlHostname ("http:" ++ href)
  else urlHostname base

/-- Model of `discover_onion_candidates(base_url, html)`: the union of the
raw-regex matches over the serialized document and the anchor hostnames
that fullmatch the onion shape, each normalized to `http://<host>/`. -/
def discover_onion_candidates (base_url : String) (d : Doc) : Finset String :=
  let rawMatches := (onionFindAll (render d)).toFinset
  let anchorHosts := ((listAnchors d).filterMap fun h =>
    let host := joinedHostname base_url h
    if onionFullmatchB host then some host else none).toFinset
  (rawMatches ∪ anchorHosts).image fun host => "http://" ++ host ++ "/"

/-! ## The result store

The two SQLite tables become lists of rows in insertion order.  `NULL`able
columns are `Option`s; `ok INTEGER` (always written as 0/1) is a `Bool`. -/

structure CheckRow where
  checked_at : String
  target_url : String
  final_url : Option String
  status_code : Option Nat
  ok : Bool
  error : Option String
  content_sig : Option String
  title : Option String
deriving DecidableEq

structure DiscoveryRow where
  discovered_at : String
  source_url : String
  discovered_url : String
deriving DecidableEq

structure Db where
  checks : List CheckRow
  discoveries : List DiscoveryRow
deriving DecidableEq

/-- The WHERE clause of the mirror query:
`content_sig = ? AND target_url <> ?`.  In SQL a `NULL` `content_sig`
compares unequal to every string parameter, which `Option` equality against
`some signature` models exactly. -/
def matchesSig (signature current : String) (r : CheckRow) : Bool :=
  r.content_sig == some signature && r.target_url != current

/-- Keep the first row (in table order) for each distinct `target_url`. -/
def dedupByTargetAux (seen : List String) : List CheckRow → List CheckRow
  | [] => []
  | r :: rs =>
    if seen.contains r.target_url then dedupByTargetAux seen rs
    else r :: dedupByTargetAux (r.target_url :: seen) rs

/-- First-occurrence deduplication by `target_url`. -/
def dedupByTarget (l : List CheckRow) : List CheckRow := dedupByTargetAux [] l

/-- Byte-wise (codepoint-wise) lexicographic comparison of strings, the
order SQLite's default BINARY collation gives `ORDER BY` on a TEXT column
(identical to codepoint order for the ASCII timestamps involved). -/
def strLeB : List Char → List Char → Bool
  | [], _ => true
  | _ :: _, [] => false
  | a :: as, b :: bs =>
    if a.toNat < b.toNat then true
    else if b.toNat < a.toNat then false
    else strLeB as bs

/-- Insert into a list sorted by `checked_at` descending (stable). -/
def insertDescByTime (r : CheckRow) : List CheckRow → List CheckRow
  | [] => [r]
  | x :: xs =>
    if strLeB x.checked_at.data r.checked_at.data then r :: x :: xs
    else x :: insertDescByTime r xs

/-- Stable sort by `checked_at` descending.  SQLite's `ORDER BY` on a TEXT
column is a byte-wise comparison, which for the ASCII timestamps involved
coincides with the lexicographic `String` order used here. -/
def sortByTimeDesc : List CheckRow → List CheckRow
  | [] => []
  | r :: rs => insertDescByTime r (sortByTimeDesc rs)

/-- Model of `recently_seen_signature` (the spec's `find_mirrors`):
`SELECT DISTINCT target_url FROM checks WHERE content_sig = ? AND
target_url <> ? ORDER BY checked_at DESC LIMIT 5`.  With `DISTINCT` over a
column not covering the `ORDER BY` term, SQLite deduplicates `target_url`
keeping, for each target, the first matching row in table order, and sorts
the deduplicated rows by that row's `checked_at` (verified against SQLite
3.40 on the query as written); the model does the same. -/
def recently_seen_signature (rows : List CheckRow) (signature current : String) :
    List String :=
  ((sortByTimeDesc (dedupByTarget (rows.filter (matchesSig signature current)))).take 5).map
    (·.target_url)

/-- Does the discovery ledger already contain the (source, discovered) pair
protected by `UNIQUE(source_url, discovered_url)`? -/
def pairPresent (l : List DiscoveryRow) (source url : String) : Bool :=
  l.any fun d => d.source_url == source && d.discovered_url == url

/-- One `INSERT OR IGNORE INTO discovered_onions ...` statement: insert if
the unique key is absent, silently do nothing otherwise. -/
def insertDiscovery (db : Db) (now source url : String) : Db :=
  if pairPresent db.discoveries source url then db
  else { db with discoveries := db.discoveries ++ [⟨now, source, url⟩] }

/-- Model of `save_discoveries`: one `INSERT OR IGNORE` per discovered URL.
(The source stamps each row with `utc_now()` at insertion time; the single
`now` parameter stands for those timestamps.) -/
def save_discoveries (db : Db) (now source : String) (urls : List String) : Db :=
  urls.foldl (fun acc u => insertDiscovery acc now source u) db

/-! ## The poll loop (one cycle) -/

/-- The outcome `session.get(target, ...)` delivers to the loop body: either
a response (status code, final URL after redirects, parsed body) or a raised
transport exception with its message. -/
inductive FetchResult where
  | success (status : Nat) (final_url : String) (body : Doc)
  | failure (error : String)

/-- The recorded signature: `sig = content_signature(html) if html else None`
— `None` exactly when the body text is the empty string (Python falsiness
of `html`). -/
def sigOf (body : Doc) : Option String :=
  if render body = "" then none else some (content_signature body)

/-- The one row the loop body inserts into `checks` for this attempt. -/
def checkRowOf (now target : String) : FetchResult → CheckRow
  | .success status final_url body =>
    { checked_at := now, target_url := target, final_url := some final_url,
      status_code := some status, ok := true, error := none,
      content_sig := sigOf body, title := titleText body }
  | .failure msg =>
    { checked_at := now, target_url := target, final_url := none,
      status_code := none, ok := false, error := some msg,
      content_sig := none, title := none }

/-- Observable side outputs of one loop iteration that the claims mention:
the mirror query, when one is issued, with its result. -/
structure StepLog where
  mirrorQuery : Option (String × List String)
deriving DecidableEq

/-- One iteration of the per-target loop body with an infallible store: on
success insert the ok-row, save the discoveries when non-empty, and issue
the mirror query when `if sig:` is truthy; on transport failure insert the
fail-row.  (Python iterates the discovery set in unspecified order; the
model uses its sorted enumeration.) -/
def processTarget (db : Db) (now target : String) (res : FetchResult) : Db × StepLog :=
  match res with
  | .success status final_url body =>
    let row := checkRowOf now target (.success status final_url body)
    let db1 : Db := { db with checks := db.checks ++ [row] }
    let disc := discover_onion_candidates final_url body
    let db2 := if disc = ∅ then db1 else save_discoveries db1 now target (disc.sort (· ≤ ·))
    let log : StepLog :=
      { mirrorQuery :=
          match row.content_sig with
          | some s =>
            if s != "" then some (s, recently_seen_signature db2.checks s target) else none
          | none => none }
    (db2, log)
  | .failure msg =>
    ({ db with checks := db.checks ++ [checkRowOf now target (.failure msg)] },
     { mirrorQuery := none })

/-- Worker for `runCycle`: the index feeds the per-iteration clock. -/
def runCycleAux (clock : Nat → String) (fetch : String → FetchResult) :
    Nat → Db → List String → Db
  | _, db, [] => db
  | i, db, t :: ts =>
    runCycleAux clock fetch (i + 1) (processTarget db (clock i) t (fetch t)).1 ts

/-- One pass of the `while True:` loop over the freshly loaded target list:
each target is processed sequentially; `clock i` is the `utc_now()` of the
i-th iteration and `fetch t` the outcome of its HTTP GET. -/
def runCycle (db : Db) (clock : Nat → String) (targets : List String)
    (fetch : String → FetchResult) : Db :=
  runCycleAux clock fetch 0 db targets

/-! ## The poll loop with a fallible store

To examine the storage-failure path, store writes are made fallible: each
execute+commit batch consumes one entry of a write oracle, `none` meaning
the write succeeds and `some msg` meaning the sqlite call raises with that
message. -/

abbrev WriteOracle := List (Option String)

/-- Consume the next write outcome (an exhausted oracle means success). -/
def nextWrite : WriteOracle → Option String × WriteOracle
  | [] => (none, [])
  | w :: ws => (w, ws)

/-- The body of the `try:` block with a fallible store: fetch, insert the
ok-row, save discoveries.  Any raise — the transport error of the fetch or
a storage error of a write — exits the body as `.error`.  (The mirror query
is a read and is not modelled as failing.) -/
def tryBody (db : Db) (now target : String) (res : FetchResult) (ws : WriteOracle) :
    Except String Db × WriteOracle :=
  match res with
  | .failure msg => (.error msg, ws)
  | .success status final_url body =>
    let row := checkRowOf now target (.success status final_url body)
    let (w1, ws1) := nextWrite ws
    match w1 with
    | some msg => (.error msg, ws1)
    | none =>
      let db1 : Db := { db with checks := db.checks ++ [row] }
      let disc := discover_onion_candidates final_url body
      if disc = ∅ then (.ok db1, ws1)
      else
        let (w2, ws2) := nextWrite ws1
        match w2 with
        | some msg => (.error msg, ws2)
        | none => (.ok (save_discoveries db1 now target (disc.sort (· ≤ ·))), ws2)

/-- One iteration of the loop body with the `try`/`except Exception`
boundary made explicit: any exception of the body — storage errors included
— reaches the handler, which inserts an ok=false row carrying the
exception's message; only a raise out of that insert propagates past the
iteration (and, in the source, halts the process). -/
def processTargetFallible (db : Db) (now target : String) (res : FetchResult)
    (ws : WriteOracle) : Except String Db × WriteOracle :=
  match tryBody db now target res ws with
  | (.ok db1, ws1) => (.ok db1, ws1)
  | (.error msg, ws1) =>
    let (w, ws2) := nextWrite ws1
    match w with
    | some msg2 => (.error msg2, ws2)
    | none =>
      (.ok { db with checks := db.checks ++ [checkRowOf now target (.failure msg)] }, ws2)

/-! ## Derived notions used by the theorems -/

/-- The canonical form of one text fragment under the fingerprint pipeline:
strip, collapse whitespace runs, lowercase. -/
def canonFrag (l : List Char) : List Char := lowerL (collapse (pyStrip l))

/-- The canonical fragment sequence of a document: the fingerprint is a
function of exactly this data (see `normalize_canon`). -/
def canonFrags (d : Doc) : List (List Char) :=
  ((docFrags d).map fun s => canonFrag s.data).filter nonNil

/-- Nodes that carry no markup of their own (text and comments): the only
children the `html.parser` builder ever places inside `<script>`/`<style>`
elements. -/
def isTextual : Node → Bool
  | .text _ => true
  | .comment _ => true
  | .elem _ _ _ => false

/-- Number of discovery rows carrying a given (source, discovered) pair. -/
def pairCount (l : List DiscoveryRow) (source url : String) : Nat :=
  (l.filter fun d => d.source_url == source && d.discovered_url == url).length

/-- Number of distinct targets other than `current` that have some check row
with the given signature. -/
def sigTargetCount (rows : List CheckRow) (signature current : String) : Nat :=
  ((rows.filter (matchesSig signature current)).map (·.target_url)).toFinset.card

/-- A store of eight ok-rows all sharing the signature `"sig"`: target `"b"`
checked first, then `"a"` and six more targets at later timestamps. -/
def capRows : List CheckRow :=
  [⟨"t1", "b", some "b", some 200, true, none, some "sig", none⟩,
   ⟨"t2", "a", some "a", some 200, true, none, some "sig", none⟩,
   ⟨"t3", "c", some "c", some 200, true, none, some "sig", none⟩,
   ⟨"t4", "d", some "d", some 200, true, none, some "sig", none⟩,
   ⟨"t5", "e", some "e", some 200, true, none, some "sig", none⟩,
   ⟨"t6", "f", some "f", some 200, true, none, some "sig", none⟩,
   ⟨"t7", "g", some "g", some 200, true, none, some "sig", none⟩,
   ⟨"t8", "h", some "h", some 200, true, none, some "sig", none⟩]

/-- A two-target store: `"a"` and `"b"` share the signature `"sig"`. -/
def twoMirrorRows : List CheckRow :=
  [⟨"t1", "a", some "a", some 200, true, none, some "sig", none⟩,
   ⟨"t2", "b", some "b", some 200, true, none, some "sig", none⟩]

/-- The page of the spec's discovery test: a single anchor whose onion label
has 51 characters (the spec counts it as 56). -/
def specAnchorPage : Doc :=
  [Node.elem "a"
    [("href", "http://ABCDEFGHIJKLMNOPQRSTUVWXYZABCDEFGHIJKLMNOPQRSTUVWXY.onion/x")] []]

/-- An anchor with a genuine 56-character label, written in upper case. -/
def upperAnchorPage : Doc :=
  [Node.elem "a"
    [("href", "http://ABCDEFGHIJKLMNOPQRSTUVWXYZABCDEFGHIJKLMNOPQRSTUVWXYZABCD.onion/x")] []]

/-- A page whose only onion-like label has 55 characters. -/
def label55Page : Doc :=
  [Node.elem "p" [] [Node.text ("http://" ++ String.mk (List.replicate 55 'a') ++ ".onion")]]

/-- A page whose only onion-like label has 57 characters. -/
def label57Page : Doc :=
  [Node.elem "p" [] [Node.text ("http://" ++ String.mk (List.replicate 57 'a') ++ ".onion")]]

/-! ## Helper lemmas: the check ledger under the poll loop -/

theorem insertDiscovery_checks (db : Db) (now source url : String) :
    (insertDiscovery db now source url).checks = db.checks := by
  unfold insertDiscovery
  split <;> rfl

theorem save_discoveries_checks (db : Db) (now source : String) (urls : List String) :
    (save_discoveries db now source urls).checks = db.checks := by
  induction urls generalizing db with
  | nil => rfl
  | cons u us ih =>
    show (save_discoveries (insertDiscovery db now source u) now source us).checks = _
    rw [ih, insertDiscovery_checks]

theorem processTarget_checks (db : Db) (now target : String) (res : FetchResult) :
    (processTarget db now target res).1.checks = db.checks ++ [checkRowOf now target res] := by
  cases res with
  | success status final_url body =>
    show (if _ = ∅ then _ else save_discoveries _ _ _ _).checks = _
    split
    · rfl
    · rw [save_discoveries_checks]
  | failure msg => rfl

theorem runCycleAux_checks (clock : Nat → String) (fetch : String → FetchResult)
    (ts : List String) :
    ∀ (i : Nat) (db : Db),
      (runCycleAux clock fetch i db ts).checks =
        db.checks ++ (ts.enumFrom i).map fun p => checkRowOf (clock p.1) p.2 (fetch p.2) := by
  induction ts with
  | nil => intro i db; simp [runCycleAux]
  | cons t ts ih =>
    intro i db
    show (runCycleAux clock fetch (i + 1) (processTarget db (clock i) t (fetch t)).1 ts).checks = _
    rw [ih, processTarget_checks]
    simp [List.enumFrom]

theorem runCycle_checks (db : Db) (clock : Nat → String) (targets : List String)
    (fetch : String → FetchResult) :
    (runCycle db clock targets fetch).checks =
      db.checks ++ targets.enum.map fun p => checkRowOf (clock p.1) p.2 (fetch p.2) :=
  runCycleAux_checks clock fetch targets 0 db

/-! ## C7: the check-ledger row invariant -/

/-- C7 — Every row a poll cycle appends to the check ledger satisfies
exactly one of: `ok = true` with a non-null `status_code`, or `ok = false`
with a non-null `error` and `status_code`, `content_sig`, `final_url`,
`title` all null; and the cycle only ever appends to the ledger, never
updating or deleting the existing rows. -/
theorem check_rows_invariant :
    ∀ (db : Db) (clock : Nat → String) (targets : List String)
      (fetch : String → FetchResult),
      ∃ newRows,
        (runCycle db clock targets fetch).checks = db.checks ++ newRows ∧
        ∀ r ∈ newRows,
          Xor' (r.ok = true ∧ r.status_code ≠ none)
            (r.ok = false ∧ r.error ≠ none ∧ r.status_code = none ∧
             r.content_sig = none ∧ r.final_url = none ∧ r.title = none) := by
  intro db clock targets fetch
  refine ⟨_, runCycle_checks db clock targets fetch, ?_⟩
  intro r hr
  rcases List.mem_map.mp hr with ⟨p, _, rfl⟩
  cases fetch p.2 with
  | success status final_url body =>
    exact Or.inl ⟨⟨rfl, by simp [checkRowOf]⟩, by simp [checkRowOf]⟩
  | failure msg =>
    exact Or.inr ⟨⟨rfl, by simp [checkRowOf], rfl, rfl, rfl, rfl⟩, by simp [checkRowOf]⟩

/-! ## C8: transport failures are isolated to their own target -/

/-- C8 — In a single cycle every target of the list gets exactly one check
row, in order, regardless of the other targets' outcomes: a transport
failure for one target neither aborts the cycle nor affects the rows of the
targets scheduled after it, and the failed target's own row is the
`ok = false` row carrying the error description. -/
theorem transport_failure_isolated :
    (∀ (db : Db) (clock : Nat → String) (targets : List String)
       (fetch : String → FetchResult),
       (runCycle db clock targets fetch).checks =
         db.checks ++ targets.enum.map fun p => checkRowOf (clock p.1) p.2 (fetch p.2))
    ∧ (∀ now target msg,
        checkRowOf now target (.failure msg) =
          { checked_at := now, target_url := target, final_url := none, status_code := none,
            ok := false, error := some msg, content_sig := none, title := none }) :=
  ⟨runCycle_checks, fun _ _ _ => rfl⟩

/-! ## C9: storage failures at the per-target boundary -/

/-- C9 — The blanket `except Exception` of the loop body also catches
storage failures: when the `INSERT` of the ok-row raises (here with
"disk I/O error") and the handler's own `INSERT` succeeds, the iteration
completes normally having converted the storage failure into an
`ok = false` check row carrying the storage error message — the exception
does not propagate and the process does not halt.  Only when the handler's
insert raises as well does the exception propagate. -/
theorem storage_failure_swallowed :
    processTargetFallible ⟨[], []⟩ "2024-01-01T00:00:00+00:00" "http://target.onion/"
        (.success 200 "http://target.onion/" []) [some "disk I/O error"]
      = (.ok ⟨[{ checked_at := "2024-01-01T00:00:00+00:00",
                 target_url := "http://target.onion/", final_url := none,
                 status_code := none, ok := false, error := some "disk I/O error",
                 content_sig := none, title := none }], []⟩, [])
    ∧ processTargetFallible ⟨[], []⟩ "2024-01-01T00:00:00+00:00" "http://target.onion/"
        (.success 200 "http://target.onion/" [])
        [some "disk I/O error", some "attempt to write a readonly database"]
      = (.error "attempt to write a readonly database", []) := by
  constructor
  · rfl
  · rfl

/-! ## C3: when is the recorded fingerprint null? -/

/-- C3 counterexample — For the markup-only body `<div></div>` (no visible
text, non-empty raw text) the recorded fingerprint is not null: it is
precisely the SHA-256 digest of the empty string, contradicting the claim
that bodies without visible text always yield a null fingerprint. -/
theorem markup_only_body_gets_empty_digest :
    sigOf [Node.elem "div" [] []] = some (sha256HexStr "")
    ∧ sha256HexStr ""
        = "e3b0c44298fc1c149afbf4c8996fb92427ae41e4649b934ca495991b7852b855"
    ∧ normalize_text [Node.elem "div" [] []] = "" := by
  refine ⟨?_, by decide, by decide⟩
  decide

/-- C3 amended — The recorded fingerprint is null exactly when the raw body
text is the empty string (`sig = content_signature(html) if html else
None`); a non-empty body with no visible text instead gets the digest of
the empty normalized text. -/
theorem sig_none_iff_empty_body (body : Doc) :
    (sigOf body = none ↔ render body = "")
    ∧ (render body ≠ "" → normalize_text body = "" → sigOf body = some (sha256HexStr "")) := by
  constructor
  · unfold sigOf
    split <;> simp_all
  · intro h hn
    unfold sigOf
    rw [if_neg h]
    unfold content_signature
    rw [hn]

theorem sig_none_iff_empty_body_witness :
    sigOf [Node.elem "div" [] []] = some (sha256HexStr "") :=
  (sig_none_iff_empty_body [Node.elem "div" [] []]).2 (by decide) (by decide)

/-! ## C4: discovery on the spec's anchor page -/

/-- C4 counterexample — On the claim's page the onion label has only 51
characters, so neither the raw regex pass nor the anchor pass matches:
`discover` returns the empty set, not the claimed lowercase singleton. -/
theorem discover_spec_anchor_is_empty :
    discover_onion_candidates "http://source.onion/" specAnchorPage = ∅
    ∧ (∅ : Finset String)
        ≠ {"http://abcdefghijklmnopqrstuvwxyzabcdefghijklmnopqrstuvwxy.onion/"} := by
  constructor
  · decide
  · decide

/-- C4 amended — The claim's anchor label has 51 characters, one short of
the 56 the pattern requires at each of its occurrences, so `discover`
returns the empty set on that page.  Moreover the lowercase-normalization
half of the claim fails even for a genuine 56-character uppercase label:
the raw regex pass keeps the match in its original case while the anchor
pass lowercases the hostname, so `discover` returns both spellings. -/
theorem discover_spec_anchor_amended :
    discover_onion_candidates "http://source.onion/" specAnchorPage = ∅
    ∧ discover_onion_candidates "http://source.onion/" upperAnchorPage =
        {"http://ABCDEFGHIJKLMNOPQRSTUVWXYZABCDEFGHIJKLMNOPQRSTUVWXYZABCD.onion/",
         "http://abcdefghijklmnopqrstuvwxyzabcdefghijklmnopqrstuvwxyzabcd.onion/"} := by
  constructor
  · decide
  · decide

/-! ## C5: label lengths 55 and 57 -/

/-- C5 counterexample — A page whose only onion-like label has 57
characters is matched after all: the regex finds the label's last 56
characters followed by `.onion`, so `discover` returns a non-empty set. -/
theorem discover_57_label_not_empty :
    discover_onion_candidates "http://source.onion/" label57Page =
      {"http://" ++ String.mk (List.replicate 56 'a') ++ ".onion/"}
    ∧ discover_onion_candidates "http://source.onion/" label57Page ≠ ∅ := by
  constructor
  · decide
  · decide

/-- C5 amended — A 55-character label is not matched (no run of 56 class
characters precedes `.onion`), but a 57-character label is: the unanchored
regex matches its 56-character suffix, and `discover` returns the
corresponding canonical candidate. -/
theorem discover_55_empty_57_suffix :
    discover_onion_candidates "http://source.onion/" label55Page = ∅
    ∧ discover_onion_candidates "http://source.onion/" label57Page =
        {"http://" ++ String.mk (List.replicate 56 'a') ++ ".onion/"} := by
  constructor
  · decide
  · decide

/-! ## C6: idempotence of the discovery insert -/

theorem pairCount_pos_iff_pairPresent (l : List DiscoveryRow) (source url : String) :
    0 < pairCount l source url ↔ pairPresent l source url = true := by
  induction l with
  | nil => simp [pairCount, pairPresent]
  | cons d l ih =>
    by_cases h : (d.source_url == source && d.discovered_url == url) = true
    · simp [pairCount, pairPresent, List.filter_cons, List.any_cons, h]
    · simp only [pairCount, pairPresent, List.filter_cons, List.any_cons, h] at ih ⊢
      simp only [Bool.false_or, if_neg h]
      exact ih

theorem pairPresent_after_insert (db : Db) (now source url : String) :
    pairPresent (insertDiscovery db now source url).discoveries source url = true := by
  unfold insertDiscovery
  split
  · assumption
  · simp [pairPresent, List.any_append]

theorem insertDiscovery_of_present (db : Db) (now source url : String)
    (h : pairPresent db.discoveries source url = true) :
    insertDiscovery db now source url = db := by
  unfold insertDiscovery
  rw [if_pos h]

/-- C6 — `record_discoveries` is idempotent per (source, discovered) pair:
as long as the unique constraint held before (at most one row for the
pair), a call leaves exactly one row for the pair, and a repeated call with
the identical pair is a complete no-op — no error, no new row, and the
stored `discovered_at` of the first observation unchanged. -/
theorem save_discoveries_idempotent (db : Db) (now1 now2 source url : String)
    (h : pairCount db.discoveries source url ≤ 1) :
    save_discoveries (save_discoveries db now1 source [url]) now2 source [url]
      = save_discoveries db now1 source [url]
    ∧ pairCount (save_discoveries db now1 source [url]).discoveries source url = 1 := by
  have hone : ∀ (d : Db) (n : String), save_discoveries d n source [url]
      = insertDiscovery d n source url := fun d n => rfl
  rw [hone, hone]
  constructor
  · exact insertDiscovery_of_present _ now2 source url
      (pairPresent_after_insert db now1 source url)
  · have hpos : 0 < pairCount (insertDiscovery db now1 source url).discoveries source url :=
      (pairCount_pos_iff_pairPresent _ _ _).mpr (pairPresent_after_insert db now1 source url)
    unfold insertDiscovery at hpos ⊢
    split at hpos
    · next hp =>
      rw [if_pos hp]
      omega
    · next hp =>
      rw [if_neg hp]
      have hz : pairCount db.discoveries source url = 0 := by
        rcases Nat.eq_zero_or_pos (pairCount db.discoveries source url) with h0 | hgt
        · exact h0
        · exact absurd ((pairCount_pos_iff_pairPresent _ _ _).mp hgt) (by simp [hp])
      show pairCount (db.discoveries ++ [⟨now1, source, url⟩]) source url = 1
      unfold pairCount at hz ⊢
      rw [List.filter_append, List.length_append, hz]
      simp [List.filter_cons]

theorem save_discoveries_idempotent_witness :
    save_discoveries (save_discoveries ⟨[], []⟩ "t1" "http://src.onion/"
        ["http://found.onion/"]) "t2" "http://src.onion/" ["http://found.onion/"]
      = save_discoveries ⟨[], []⟩ "t1" "http://src.onion/" ["http://found.onion/"]
    ∧ pairCount (save_discoveries ⟨[], []⟩ "t1" "http://src.onion/"
        ["http://found.onion/"]).discoveries "http://src.onion/" "http://found.onion/" = 1 :=
  save_discoveries_idempotent ⟨[], []⟩ "t1" "t2" "http://src.onion/" "http://found.onion/"
    (by decide)

/-! ## C10: null signatures never take part in mirror detection -/

/-- C10 — Check rows with a null `content_sig` are irrelevant to the mirror
query (removing them changes no result); a store whose rows all have null
signatures yields the empty mirror list for every query; and the loop never
issues a mirror query when the current fetch produced no fingerprint
(empty body) or failed. -/
theorem null_sig_never_mirrors :
    (∀ (rows : List CheckRow) (signature current : String),
       recently_seen_signature (rows.filter fun r => r.content_sig.isSome) signature current
         = recently_seen_signature rows signature current)
    ∧ (∀ (rows : List CheckRow) (signature current : String),
        (∀ r ∈ rows, r.content_sig = none) →
        recently_seen_signature rows signature current = [])
    ∧ (∀ (db : Db) (now target : String) (status : Nat) (final_url : String) (body : Doc),
        render body = "" →
        (processTarget db now target (.success status final_url body)).2.mirrorQuery = none)
    ∧ (∀ (db : Db) (now target msg : String),
        (processTarget db now target (.failure msg)).2.mirrorQuery = none) := by
  refine ⟨?_, ?_, ?_, fun _ _ _ _ => rfl⟩
  · intro rows signature current
    unfold recently_seen_signature
    rw [List.filter_filter]
    have hf : (rows.filter fun a => matchesSig signature current a && a.content_sig.isSome)
        = rows.filter (matchesSig signature current) := by
      apply List.filter_congr
      intro r _
      cases hc : r.content_sig with
      | none => simp [matchesSig, hc]
      | some v => simp [matchesSig, hc]
    rw [hf]
  · intro rows signature current h
    unfold recently_seen_signature
    have : rows.filter (matchesSig signature current) = [] := by
      apply List.filter_eq_nil_iff.mpr
      intro r hr
      simp [matchesSig, h r hr]
    rw [this]
    rfl
  · intro db now target status final_url body hb
    show (let row := checkRowOf now target (.success status final_url body); _) = _
    simp only [checkRowOf, processTarget]
    have : sigOf body = none := by unfold sigOf; rw [if_pos hb]
    simp [this]

theorem null_sig_never_mirrors_witness :
    recently_seen_signature
        [⟨"t1", "a", some "a", some 200, true, none, none, none⟩,
         ⟨"t2", "b", some "b", some 200, true, none, none, none⟩] "x" "a" = []
    ∧ (processTarget ⟨[], []⟩ "t1" "http://a.onion/"
        (.success 200 "http://a.onion/" [])).2.mirrorQuery = none :=
  ⟨null_sig_never_mirrors.2.1 _ "x" "a" (by decide),
   null_sig_never_mirrors.2.2.1 ⟨[], []⟩ "t1" "http://a.onion/" 200 "http://a.onion/" []
     (by decide)⟩

/-! ## Helper lemmas: the mirror-query pipeline -/

theorem not_mem_of_contains_eq_false {seen : List String} {a : String}
    (h : ¬seen.contains a = true) : a ∉ seen :=
  fun hm => h (List.elem_iff.mpr hm)

theorem mem_of_mem_dedupByTargetAux :
    ∀ (l : List CheckRow) (seen : List String) (x : CheckRow),
      x ∈ dedupByTargetAux seen l → x ∈ l := by
  intro l
  induction l with
  | nil => intro seen x hx; exact absurd hx (by simp [dedupByTargetAux])
  | cons r rs ih =>
    intro seen x hx
    unfold dedupByTargetAux at hx
    split at hx
    · exact List.mem_cons_of_mem r (ih seen x hx)
    · rcases List.mem_cons.mp hx with h | h
      · exact h ▸ List.mem_cons_self r rs
      · exact List.mem_cons_of_mem r (ih _ x h)

theorem dedupByTargetAux_nodup_targets :
    ∀ (l : List CheckRow) (seen : List String),
      ((dedupByTargetAux seen l).map (·.target_url)).Nodup ∧
      ∀ x ∈ dedupByTargetAux seen l, x.target_url ∉ seen := by
  intro l
  induction l with
  | nil => intro seen; simp [dedupByTargetAux]
  | cons r rs ih =>
    intro seen
    unfold dedupByTargetAux
    split
    · next hseen => exact ⟨(ih seen).1, (ih seen).2⟩
    · next hseen =>
      constructor
      · refine List.nodup_cons.mpr ⟨?_, (ih (r.target_url :: seen)).1⟩
        intro hmem
        rcases List.mem_map.mp hmem with ⟨x, hx, htx⟩
        exact (ih (r.target_url :: seen)).2 x hx (htx ▸ List.mem_cons_self _ _)
      · intro x hx
        rcases List.mem_cons.mp hx with h | h
        · exact h ▸ not_mem_of_contains_eq_false hseen
        · intro hxs
          exact (ih (r.target_url :: seen)).2 x h (List.mem_cons_of_mem _ hxs)

theorem dedupByTargetAux_complete :
    ∀ (l : List CheckRow) (seen : List String) (b : String),
      b ∈ l.map (·.target_url) → b ∉ seen →
      b ∈ (dedupByTargetAux seen l).map (·.target_url) := by
  intro l
  induction l with
  | nil => intro seen b hb; simp at hb
  | cons r rs ih =>
    intro seen b hb hbs
    unfold dedupByTargetAux
    rcases List.mem_map.mp hb with ⟨x, hx, htx⟩
    split
    · next hseen =>
      rcases List.mem_cons.mp hx with h | h
      · subst h
        exact absurd (htx ▸ List.elem_iff.mp hseen) hbs
      · exact ih seen b (List.mem_map.mpr ⟨x, h, htx⟩) hbs
    · next hseen =>
      rcases List.mem_cons.mp hx with h | h
      · subst h
        simp only [List.map_cons]
        exact List.mem_cons.mpr (Or.inl htx.symm)
      · by_cases hbr : b = r.target_url
        · simp only [List.map_cons]
          exact List.mem_cons.mpr (Or.inl hbr)
        · have hmem : b ∈ (dedupByTargetAux (r.target_url :: seen) rs).map (·.target_url) :=
            ih (r.target_url :: seen) b (List.mem_map.mpr ⟨x, h, htx⟩)
              (by simp [List.mem_cons, hbr, hbs])
          simp only [List.map_cons]
          exact List.mem_cons.mpr (Or.inr hmem)

theorem card_insert_eq_card_erase_add_one {α : Type} [DecidableEq α] (a : α) (s : Finset α) :
    (insert a s).card = (s.erase a).card + 1 := by
  by_cases h : a ∈ s
  · rw [Finset.insert_eq_self.mpr h, ← Finset.card_erase_add_one h]
  · rw [Finset.erase_eq_of_not_mem h, Finset.card_insert_of_not_mem h]

theorem dedupByTargetAux_length :
    ∀ (l : List CheckRow) (seen : List String),
      (dedupByTargetAux seen l).length =
        ((l.map (·.target_url)).toFinset \ seen.toFinset).card := by
  intro l
  induction l with
  | nil => intro seen; simp [dedupByTargetAux]
  | cons r rs ih =>
    intro seen
    unfold dedupByTargetAux
    split
    · next hseen =>
      have hseen' : r.target_url ∈ seen := List.elem_iff.mp hseen
      rw [ih seen]
      congr 1
      ext x
      simp only [List.map_cons, List.toFinset_cons, Finset.mem_sdiff, Finset.mem_insert,
        List.mem_toFinset]
      constructor
      · rintro ⟨h1, h2⟩; exact ⟨Or.inr h1, h2⟩
      · rintro ⟨h1 | h1, h2⟩
        · exact absurd (h1 ▸ hseen') h2
        · exact ⟨h1, h2⟩
    · next hseen =>
      have hseen' : r.target_url ∉ seen := not_mem_of_contains_eq_false hseen
      show (dedupByTargetAux (r.target_url :: seen) rs).length + 1 = _
      rw [ih (r.target_url :: seen)]
      have h1 : (rs.map (·.target_url)).toFinset \ (r.target_url :: seen).toFinset =
          ((rs.map (·.target_url)).toFinset \ seen.toFinset).erase r.target_url := by
        ext x
        simp only [List.toFinset_cons, Finset.mem_sdiff, Finset.mem_insert, Finset.mem_erase,
          List.mem_toFinset]
        tauto
      have h2 : ((r :: rs).map (·.target_url)).toFinset \ seen.toFinset =
          insert r.target_url ((rs.map (·.target_url)).toFinset \ seen.toFinset) := by
        ext x
        simp only [List.map_cons, List.toFinset_cons, Finset.mem_sdiff, Finset.mem_insert,
          List.mem_toFinset]
        constructor
        · rintro ⟨h3 | h3, h4⟩
          · exact Or.inl h3
          · exact Or.inr ⟨h3, h4⟩
        · rintro (h3 | ⟨h3, h4⟩)
          · exact ⟨Or.inl h3, h3 ▸ hseen'⟩
          · exact ⟨Or.inr h3, h4⟩
      rw [h1, h2, card_insert_eq_card_erase_add_one]

theorem insertDescByTime_perm (r : CheckRow) (l : List CheckRow) :
    List.Perm (insertDescByTime r l) (r :: l) := by
  induction l with
  | nil => exact List.Perm.refl _
  | cons x xs ih =>
    unfold insertDescByTime
    split
    · exact List.Perm.refl _
    · exact (ih.cons x).trans (List.Perm.swap r x xs)

theorem sortByTimeDesc_perm (l : List CheckRow) : List.Perm (sortByTimeDesc l) l := by
  induction l with
  | nil => exact List.Perm.refl _
  | cons r rs ih => exact (insertDescByTime_perm r (sortByTimeDesc rs)).trans (ih.cons r)

/-! ## C1: what find_mirrors returns -/

/-- C1 counterexample — `capRows` contains check rows for the distinct
targets "a" and "b" with the same non-null signature "sig", yet
`find_mirrors("sig", excluding="a")` does not contain "b": six other
targets share the signature with later timestamps, and the LIMIT-5 cap
drops "b". -/
theorem find_mirrors_can_miss_mirror :
    (∃ r ∈ capRows, r.target_url = "b" ∧ r.content_sig = some "sig")
    ∧ (∃ r ∈ capRows, r.target_url = "a" ∧ r.content_sig = some "sig")
    ∧ ("b" : String) ≠ "a"
    ∧ "b" ∉ recently_seen_signature capRows "sig" "a" := by
  refine ⟨⟨⟨"t1", "b", some "b", some 200, true, none, some "sig", none⟩, by decide⟩,
    ⟨⟨"t2", "a", some "a", some 200, true, none, some "sig", none⟩, by decide⟩,
    by decide, by decide⟩

/-- C1 amended — `find_mirrors` always returns at most 5 targets, without
duplicates, never the excluded target, and only targets having some check
row with the queried signature; and it contains every other target `b` that
has such a row provided at most 5 distinct non-excluded targets carry the
signature (the LIMIT-5 cap is the only reason a genuine mirror can be
missing). -/
theorem find_mirrors_spec (rows : List CheckRow) (signature current : String) :
    (recently_seen_signature rows signature current).length ≤ 5
    ∧ (recently_seen_signature rows signature current).Nodup
    ∧ current ∉ recently_seen_signature rows signature current
    ∧ (∀ t ∈ recently_seen_signature rows signature current,
        ∃ r ∈ rows, r.target_url = t ∧ r.content_sig = some signature)
    ∧ (∀ b, b ≠ current →
        (∃ r ∈ rows, r.target_url = b ∧ r.content_sig = some signature) →
        sigTargetCount rows signature current ≤ 5 →
        b ∈ recently_seen_signature rows signature current) := by
  have hchain : ∀ x, x ∈ (sortByTimeDesc
      (dedupByTarget (rows.filter (matchesSig signature current)))).take 5 →
      x ∈ rows.filter (matchesSig signature current) := by
    intro x hx
    have hx1 : x ∈ sortByTimeDesc (dedupByTarget (rows.filter (matchesSig signature current))) :=
      List.take_subset 5 _ hx
    have hx2 : x ∈ dedupByTarget (rows.filter (matchesSig signature current)) :=
      (sortByTimeDesc_perm _).subset hx1
    exact mem_of_mem_dedupByTargetAux _ [] x hx2
  refine ⟨?_, ?_, ?_, ?_, ?_⟩
  · simp only [recently_seen_signature, List.length_map]
    exact List.length_take_le 5 _
  · have hD : ((dedupByTarget (rows.filter (matchesSig signature current))).map
        (·.target_url)).Nodup :=
      (dedupByTargetAux_nodup_targets _ []).1
    have hS : ((sortByTimeDesc (dedupByTarget (rows.filter
        (matchesSig signature current)))).map (·.target_url)).Nodup :=
      (((sortByTimeDesc_perm _).map (fun r : CheckRow => r.target_url)).symm).nodup hD
    exact ((List.take_sublist 5 _).map (fun r : CheckRow => r.target_url)).nodup hS
  · intro hmem
    rcases List.mem_map.mp hmem with ⟨r, hr, htu⟩
    have hrF := hchain r hr
    have := (List.mem_filter.mp hrF).2
    rw [matchesSig, Bool.and_eq_true, bne_iff_ne] at this
    exact this.2 htu
  · intro t ht
    rcases List.mem_map.mp ht with ⟨r, hr, htu⟩
    have hrF := hchain r hr
    have hmem := (List.mem_filter.mp hrF).1
    have hm := (List.mem_filter.mp hrF).2
    rw [matchesSig, Bool.and_eq_true, beq_iff_eq] at hm
    exact ⟨r, hmem, htu, hm.1⟩
  · rintro b hbne ⟨r, hr, hrt, hrs⟩ hcap
    have hrF : r ∈ rows.filter (matchesSig signature current) := by
      refine List.mem_filter.mpr ⟨hr, ?_⟩
      rw [matchesSig, Bool.and_eq_true, beq_iff_eq, bne_iff_ne]
      exact ⟨hrs, hrt ▸ hbne⟩
    have hbD : b ∈ (dedupByTarget (rows.filter (matchesSig signature current))).map
        (·.target_url) :=
      dedupByTargetAux_complete _ [] b (List.mem_map.mpr ⟨r, hrF, hrt⟩) (by simp)
    have hlenS : (sortByTimeDesc (dedupByTarget (rows.filter
        (matchesSig signature current)))).length ≤ 5 := by
      rw [(sortByTimeDesc_perm _).length_eq]
      have hl := dedupByTargetAux_length (rows.filter (matchesSig signature current)) []
      simp only [List.toFinset_nil, Finset.sdiff_empty] at hl
      rw [dedupByTarget, hl]
      exact hcap
    show b ∈ ((sortByTimeDesc (dedupByTarget (rows.filter
        (matchesSig signature current)))).take 5).map (·.target_url)
    rw [List.take_of_length_le hlenS]
    exact ((sortByTimeDesc_perm _).map (·.target_url)).mem_iff.mpr hbD

theorem find_mirrors_spec_witness :
    "b" ∈ recently_seen_signature twoMirrorRows "sig" "a" :=
  (find_mirrors_spec twoMirrorRows "sig" "a").2.2.2.2 "b" (by decide) (by decide) (by decide)

/-! ## Helper lemmas: the normalization pipeline

These establish that `normalize_text` is a function of the canonical
fragment sequence `canonFrags` alone: stripping, whitespace collapsing and
lowercasing commute with the separator join in the required way. -/

theorem trimR_cons (a : Char) (t : List Char) :
    trimR (a :: t) = if isWs a && (trimR t).isEmpty then [] else a :: trimR t := rfl

theorem trimL_head_not_ws :
    ∀ (l : List Char) (c : Char), (trimL l).head? = some c → isWs c = false := by
  intro l
  induction l with
  | nil => intro c hc; simp [trimL] at hc
  | cons a t ih =>
    intro c hc
    rw [trimL, List.dropWhile_cons] at hc
    split at hc
    · exact ih c hc
    · next ha =>
      simp only [List.head?_cons, Option.some.injEq] at hc
      subst hc
      exact Bool.eq_false_iff.mpr ha

theorem trimR_head :
    ∀ (l : List Char) (c : Char), (trimR l).head? = some c → l.head? = some c := by
  intro l
  induction l with
  | nil => intro c hc; simp [trimR] at hc
  | cons a t _ =>
    intro c hc
    rw [trimR_cons] at hc
    split at hc
    · simp at hc
    · simp only [List.head?_cons, Option.some.injEq] at hc ⊢
      exact hc

theorem trimR_getLast_not_ws :
    ∀ (l : List Char) (c : Char), (trimR l).getLast? = some c → isWs c = false := by
  intro l
  induction l with
  | nil => intro c hc; simp [trimR] at hc
  | cons a t ih =>
    intro c hc
    rw [trimR_cons] at hc
    split at hc
    · simp at hc
    · next hcond =>
      cases ht : trimR t with
      | nil =>
        rw [ht] at hc
        simp only [List.getLast?_singleton, Option.some.injEq] at hc
        subst hc
        rw [ht] at hcond
        simpa using hcond
      | cons x xs =>
        rw [ht, List.getLast?_cons_cons] at hc
        exact ih c (ht ▸ hc)

theorem pyStrip_head_not_ws (l : List Char) (c : Char)
    (h : (pyStrip l).head? = some c) : isWs c = false :=
  trimL_head_not_ws l c (trimR_head (trimL l) c h)

theorem pyStrip_getLast_not_ws (l : List Char) (c : Char)
    (h : (pyStrip l).getLast? = some c) : isWs c = false :=
  trimR_getLast_not_ws (trimL l) c h

theorem isWs_space : isWs ' ' = true := rfl

theorem collapseAux_cons_not_ws (b : Bool) (c : Char) (t : List Char)
    (h : isWs c = false) : collapseAux b (c :: t) = c :: collapseAux false t := by
  simp [collapseAux, h]

theorem collapseAux_cons_ws_true (c : Char) (t : List Char)
    (h : isWs c = true) : collapseAux true (c :: t) = collapseAux true t := by
  simp [collapseAux, h]

theorem collapseAux_cons_ws_false (c : Char) (t : List Char)
    (h : isWs c = true) : collapseAux false (c :: t) = ' ' :: collapseAux true t := by
  simp [collapseAux, h]

theorem collapseAux_flag (l : List Char)
    (h : ∀ c, l.head? = some c → isWs c = false) :
    collapseAux true l = collapseAux false l := by
  cases l with
  | nil => rfl
  | cons c t =>
    have hc := h c rfl
    rw [collapseAux_cons_not_ws true c t hc, collapseAux_cons_not_ws false c t hc]

theorem collapseAux_append_sep :
    ∀ (A : List Char), A ≠ [] → (∀ c, A.getLast? = some c → isWs c = false) →
    ∀ (b : Bool) (B : List Char),
      collapseAux b (A ++ ' ' :: B) = collapseAux b A ++ ' ' :: collapseAux true B := by
  intro A
  induction A with
  | nil => intro h; exact absurd rfl h
  | cons a A' ih =>
    intro _ hlast b B
    cases A' with
    | nil =>
      have ha : isWs a = false := hlast a rfl
      show collapseAux b (a :: ' ' :: B) = collapseAux b [a] ++ ' ' :: collapseAux true B
      rw [collapseAux_cons_not_ws b a (' ' :: B) ha,
        collapseAux_cons_ws_false ' ' B isWs_space,
        collapseAux_cons_not_ws b a [] ha]
      rfl
    | cons x xs =>
      have hlast' : ∀ c, (x :: xs).getLast? = some c → isWs c = false := by
        intro c hc
        exact hlast c (by rw [List.getLast?_cons_cons]; exact hc)
      have hstep := ih (by simp) hlast'
      have hsplit : (a :: x :: xs) ++ ' ' :: B = a :: ((x :: xs) ++ ' ' :: B) := rfl
      cases ha : isWs a with
      | true =>
        cases b with
        | true =>
          rw [hsplit, collapseAux_cons_ws_true a _ ha, collapseAux_cons_ws_true a _ ha,
            hstep true B]
        | false =>
          rw [hsplit, collapseAux_cons_ws_false a _ ha, collapseAux_cons_ws_false a _ ha,
            hstep true B]
          rfl
      | false =>
        rw [hsplit, collapseAux_cons_not_ws b a _ ha, collapseAux_cons_not_ws b a _ ha,
          hstep false B]
        rfl

theorem interJoin_cons_cons (g g' : List Char) (gs : List (List Char)) :
    interJoin [' '] (g :: g' :: gs) = g ++ ' ' :: interJoin [' '] (g' :: gs) := rfl

theorem interJoin_sp_head (g : List Char) (gs : List (List Char)) (hg : g ≠ []) :
    (interJoin [' '] (g :: gs)).head? = g.head? := by
  cases gs with
  | nil => rfl
  | cons g' gs' =>
    cases g with
    | nil => exact absurd rfl hg
    | cons c t => rfl

theorem collapse_interJoin :
    ∀ (G : List (List Char)),
      (∀ g ∈ G, g ≠ [] ∧ (∀ c, g.head? = some c → isWs c = false) ∧
        (∀ c, g.getLast? = some c → isWs c = false)) →
      collapse (interJoin [' '] G) = interJoin [' '] (G.map collapse) := by
  intro G
  induction G with
  | nil => intro _; rfl
  | cons g gs ih =>
    intro hG
    cases gs with
    | nil => rfl
    | cons g' gs' =>
      have hg := hG g (List.mem_cons_self _ _)
      have hg' := hG g' (List.mem_cons_of_mem _ (List.mem_cons_self _ _))
      have hrest : ∀ x ∈ g' :: gs', x ≠ [] ∧ (∀ c, x.head? = some c → isWs c = false) ∧
          (∀ c, x.getLast? = some c → isWs c = false) :=
        fun x hx => hG x (List.mem_cons_of_mem _ hx)
      rw [show collapse (interJoin [' '] (g :: g' :: gs'))
          = collapseAux false (g ++ ' ' :: interJoin [' '] (g' :: gs')) from rfl]
      rw [collapseAux_append_sep g hg.1 hg.2.2 false (interJoin [' '] (g' :: gs'))]
      rw [collapseAux_flag (interJoin [' '] (g' :: gs'))
        (fun c hc => hg'.2.1 c ((interJoin_sp_head g' gs' hg'.1) ▸ hc))]
      rw [show collapseAux false (interJoin [' '] (g' :: gs'))
          = collapse (interJoin [' '] (g' :: gs')) from rfl]
      rw [ih hrest]
      rfl

theorem lower_space : Char.toLower ' ' = ' ' := by decide

theorem lowerL_interJoin_sp :
    ∀ (H : List (List Char)),
      lowerL (interJoin [' '] H) = interJoin [' '] (H.map lowerL) := by
  intro H
  induction H with
  | nil => rfl
  | cons g gs ih =>
    cases gs with
    | nil => rfl
    | cons g' gs' =>
      have h1 : lowerL (g ++ ' ' :: interJoin [' '] (g' :: gs'))
          = lowerL g ++ ' ' :: lowerL (interJoin [' '] (g' :: gs')) := by
        simp only [lowerL, List.map_append, List.map_cons, lower_space]
      rw [interJoin_cons_cons, h1, ih, List.map_cons]
      rfl

theorem collapse_eq_nil_iff (l : List Char) : collapse l = [] ↔ l = [] := by
  cases l with
  | nil => simp [collapse, collapseAux]
  | cons c t =>
    constructor
    · intro h
      rw [collapse, collapseAux] at h
      split at h <;> simp at h
    · intro h; exact absurd h (by simp)

theorem lowerL_eq_nil_iff (l : List Char) : lowerL l = [] ↔ l = [] := by
  rw [lowerL]
  exact List.map_eq_nil_iff

theorem nonNil_nil : nonNil [] = false := rfl

theorem nonNil_of_ne_nil {x : List Char} (h : x ≠ []) : nonNil x = true := by
  cases x with
  | nil => exact absurd rfl h
  | cons c t => rfl

theorem ne_nil_of_nonNil {x : List Char} (h : nonNil x = true) : x ≠ [] := by
  cases x with
  | nil => simp [nonNil] at h
  | cons c t => simp

theorem map_filter_nonNil (f : List Char → List Char)
    (hf : ∀ x, f x = [] ↔ x = []) :
    ∀ (X : List (List Char)),
      (X.filter nonNil).map f = (X.map f).filter nonNil := by
  intro X
  induction X with
  | nil => rfl
  | cons x xs ih =>
    rw [List.filter_cons, List.map_cons, List.filter_cons]
    by_cases hx : x = []
    · subst hx
      have hfx : f [] = [] := (hf []).mpr rfl
      rw [hfx, nonNil_nil]
      simpa using ih
    · have hfx : f x ≠ [] := fun hc => hx ((hf x).mp hc)
      rw [nonNil_of_ne_nil hx, nonNil_of_ne_nil hfx]
      simpa using congrArg (f x :: ·) ih

theorem normalize_canon (d : Doc) :
    (normalize_text d).data = interJoin [' '] (canonFrags d) := by
  have hG : ∀ g ∈ strippedFrags "[document]" d,
      g ≠ [] ∧ (∀ c, g.head? = some c → isWs c = false) ∧
      (∀ c, g.getLast? = some c → isWs c = false) := by
    intro g hg
    have hne : g ≠ [] := ne_nil_of_nonNil (List.mem_filter.mp hg).2
    have hform := (List.mem_filter.mp hg).1
    rcases List.mem_map.mp hform with ⟨s, _, hs⟩
    subst hs
    exact ⟨hne, fun c hc => pyStrip_head_not_ws s.data c hc,
      fun c hc => pyStrip_getLast_not_ws s.data c hc⟩
  rw [show (normalize_text d).data
      = lowerL (collapse (interJoin [' '] (strippedFrags "[document]" d))) from rfl]
  rw [collapse_interJoin _ hG, lowerL_interJoin_sp, List.map_map]
  have hcomm := map_filter_nonNil (lowerL ∘ collapse)
    (fun x => by
      simp only [Function.comp_apply, lowerL_eq_nil_iff, collapse_eq_nil_iff])
    ((docFrags d).map fun s => pyStrip s.data)
  rw [show strippedFrags "[document]" d
      = ((docFrags d).map fun s => pyStrip s.data).filter nonNil from rfl, hcomm,
    List.map_map]
  rfl

theorem content_signature_congr (d1 d2 : Doc)
    (h : canonFrags d1 = canonFrags d2) : content_signature d1 = content_signature d2 := by
  have h1 : normalize_text d1 = normalize_text d2 := by
    apply String.ext
    rw [normalize_canon, normalize_canon, h]
  rw [content_signature, content_signature, h1]

theorem listFrags_append (p : String) (xs ys : List Node) :
    listFrags p (xs ++ ys) = listFrags p xs ++ listFrags p ys := by
  induction xs with
  | nil => rfl
  | cons n ns ih =>
    show nodeFrags p n ++ listFrags p (ns ++ ys) = (nodeFrags p n ++ listFrags p ns) ++ _
    rw [ih, List.append_assoc]

theorem canonFrags_append (d1 d2 : Doc) :
    canonFrags (d1 ++ d2) = canonFrags d1 ++ canonFrags d2 := by
  rw [canonFrags, canonFrags, canonFrags, docFrags, docFrags, docFrags,
    listFrags_append, List.map_append, List.filter_append]

theorem listFrags_container_textual (tag : String) (htag : tag ∈ stringContainers)
    (cs : List Node) (hcs : ∀ n ∈ cs, isTextual n = true) :
    listFrags tag cs = [] := by
  induction cs with
  | nil => rfl
  | cons n ns ih =>
    show nodeFrags tag n ++ listFrags tag ns = []
    rw [ih fun m hm => hcs m (List.mem_cons_of_mem _ hm), List.append_nil]
    cases n with
    | text s => simp [nodeFrags, htag]
    | comment s => rfl
    | elem t a c => exact absurd (hcs _ (List.mem_cons_self _ _)) (by simp [isTextual])

theorem trimL_all_ws (l : List Char) (h : l.all isWs = true) : trimL l = [] := by
  induction l with
  | nil => rfl
  | cons c t ih =>
    rw [List.all_cons, Bool.and_eq_true] at h
    rw [trimL, List.dropWhile_cons, if_pos h.1]
    exact ih h.2

theorem canonFrag_all_ws (l : List Char) (h : l.all isWs = true) : canonFrag l = [] := by
  rw [canonFrag, pyStrip, trimL_all_ws l h]
  rfl

theorem canonFrags_singleton (n : Node) :
    canonFrags [n]
      = ((nodeFrags "[document]" n).map fun s => canonFrag s.data).filter nonNil := by
  rw [canonFrags, docFrags,
    show listFrags "[document]" [n] = nodeFrags "[document]" n ++ [] from rfl,
    List.append_nil]

/-! ## C2: what the fingerprint depends on -/

/-- C2 — The fingerprint is a function of the canonical fragment sequence
(each extracted text fragment stripped, whitespace-collapsed and
lowercased, empty fragments dropped): any two documents agreeing on it
share a digest, which gives invariance under whitespace-only reformatting
inside fragments and under case changes.  Moreover comments, script/style
(string-container) blocks with textual content, and whitespace-only text
nodes can be added or removed anywhere at the top level without changing
the digest — BeautifulSoup ≥ 4.9 never yields comment or script/style
contents to `get_text`. -/
theorem fingerprint_invariances :
    (∀ d1 d2 : Doc, canonFrags d1 = canonFrags d2 →
       content_signature d1 = content_signature d2)
    ∧ (∀ (pre post : Doc) (s : String),
        content_signature (pre ++ Node.comment s :: post) = content_signature (pre ++ post))
    ∧ (∀ (pre post : Doc) (tag : String) (attrs : List (String × String)) (cs : List Node),
        tag ∈ stringContainers → (∀ n ∈ cs, isTextual n = true) →
        content_signature (pre ++ Node.elem tag attrs cs :: post)
          = content_signature (pre ++ post))
    ∧ (∀ (pre post : Doc) (w : String), w.data.all isWs = true →
        content_signature (pre ++ Node.text w :: post) = content_signature (pre ++ post)) := by
  have hmid : ∀ (pre post : Doc) (n : Node), canonFrags [n] = [] →
      content_signature (pre ++ n :: post) = content_signature (pre ++ post) := by
    intro pre post n hn
    apply content_signature_congr
    rw [show pre ++ n :: post = pre ++ ([n] ++ post) from rfl,
      canonFrags_append, canonFrags_append, canonFrags_append, hn, List.nil_append]
  refine ⟨content_signature_congr, ?_, ?_, ?_⟩
  · intro pre post s
    exact hmid pre post _ rfl
  · intro pre post tag attrs cs htag hcs
    apply hmid
    rw [canonFrags_singleton,
      show nodeFrags "[document]" (Node.elem tag attrs cs) = listFrags tag cs from rfl,
      listFrags_container_textual tag htag cs hcs]
    rfl
  · intro pre post w hw
    apply hmid
    rw [canonFrags_singleton]
    show ([w].map fun s => canonFrag s.data).filter nonNil = []
    simp [canonFrag_all_ws w.data hw, nonNil]

theorem fingerprint_invariances_witness :
    content_signature [Node.elem "p" [] [Node.text "Hi  There"]]
      = content_signature [Node.elem "div" [] [Node.text "HI THERE"], Node.comment "x"]
    ∧ content_signature ([Node.text "a"] ++
        Node.elem "script" [] [Node.text "var x=1;"] :: [Node.text "b"])
      = content_signature ([Node.text "a"] ++ [Node.text "b"])
    ∧ content_signature ([Node.text "a"] ++ Node.text "  " :: [Node.text "b"])
      = content_signature ([Node.text "a"] ++ [Node.text "b"]) :=
  ⟨fingerprint_invariances.1 _ _ (by decide),
   fingerprint_invariances.2.2.1 [Node.text "a"] [Node.text "b"] "script" []
     [Node.text "var x=1;"] (by decide) (by decide),
   fingerprint_invariances.2.2.2 [Node.text "a"] [Node.text "b"] "  " (by decide)⟩

end Monitor
